import Mathlib

/-!
Shallow embedding of the Sia transaction-pool reconciliation engine
(`modules/transactionpool/update.go`): the `purge` operation,
`ProcessConsensusChange`, and `PurgeTransactionPool`, together with the
external collaborators those functions call (the Admission Gate, the durable
ledger mirror, the demotable lock and the subscriber notification), which are
modelled from the specification where their code is not among the verified
sources.  Machine integers (`types.BlockHeight` is an unsigned 64-bit integer
in Go) are represented as `Nat` with explicit reduction modulo `2 ^ 64`
wherever the source's arithmetic can wrap.  Side effects that do not touch the
in-memory pool state (durable-store writes, lock transitions, subscriber
notification, Admission Gate invocations) are recorded in an event trace so
that ordering and call-shape properties can be stated.
-/

/-- `2 ^ 64`: Go's `types.BlockHeight` is an unsigned 64-bit integer, so all
height arithmetic in the source wraps modulo this constant. -/
def U64 : Nat := 18446744073709551616

/-- `maxTxnAge` from the source: the maximum age of a transaction (in block
height) allowed before the transaction is pruned from the transaction pool. -/
def maxTxnAge : Nat := 12

/-- A transaction: a content-derived identifier (`Transaction.id` models
`txn.ID()`) plus the identifiers of the objects it claims. -/
structure Transaction where
  id : Nat
  objects : List Nat
deriving DecidableEq, Repr

/-- A block: an ordered sequence of transactions. -/
structure Block where
  transactions : List Transaction
deriving DecidableEq, Repr

/-- A consensus change: reverted blocks (most recently applied first), applied
blocks (in chain order), a change identifier, and the validation capability
`TryTransactionSet` modelled as a boolean predicate on candidate sets. -/
structure ConsensusChange where
  revertedBlocks : List Block
  appliedBlocks : List Block
  id : Nat
  tryTransactionSet : List Transaction → Bool

/-- Association-list lookup, modelling Go map indexing. -/
def alookup {α β : Type} [DecidableEq α] (k : α) : List (α × β) → Option β
  | [] => none
  | p :: rest => if p.1 = k then some p.2 else alookup k rest

/-- Association-list key removal, modelling Go `delete(m, k)`. -/
def aerase {α β : Type} [DecidableEq α] (k : α) : List (α × β) → List (α × β)
  | [] => []
  | p :: rest => if p.1 = k then aerase k rest else p :: aerase k rest

/-- Association-list insertion with overwrite, modelling Go `m[k] = v`. -/
def ainsert {α β : Type} [DecidableEq α] (k : α) (v : β) (l : List (α × β)) :
    List (α × β) :=
  (k, v) :: aerase k l

/-- The in-memory state of the transaction pool: the object-claim map
(`knownObjects`), the transaction-set map (`transactionSets`), the per-set
diff map (`transactionSetDiffs`, represented by its key set since no claim
inspects diff contents), the aggregate size counter (`transactionListSize`),
the first-seen-height map (`transactionHeights`) and the current height
(`blockHeight`).  A `TransactionSetID` is content-derived from the set and is
represented by the list of the set's transaction identifiers. -/
structure TransactionPool where
  knownObjects : List (Nat × List Nat)
  transactionSets : List (List Nat × List Transaction)
  transactionSetDiffs : List (List Nat)
  transactionListSize : Nat
  transactionHeights : List (Nat × Nat)
  blockHeight : Nat
deriving DecidableEq, Repr

/-- `purge` from the source: removes all transactions from the transaction
pool by resetting the object-claim map, the transaction-set map, the diff map
and the size counter; `transactionHeights` and `blockHeight` are untouched. -/
def TransactionPool.purge (tp : TransactionPool) : TransactionPool :=
  { tp with
    knownObjects := []
    transactionSets := []
    transactionSetDiffs := []
    transactionListSize := 0 }

/-- Events recorded while the pool operations run: lock transitions, durable
ledger mirror writes (with their success flag), Admission Gate invocations
(with the candidate set and the acceptance outcome) and subscriber
notification. -/
inductive Event where
  | lockEx
  | demote
  | notify
  | demotedUnlock
  | unlock
  | dbDelete (txid : Nat) (ok : Bool)
  | dbAdd (txid : Nat) (ok : Bool)
  | dbPutChange (ccid : Nat) (ok : Bool)
  | dbPutHeight (h : Nat) (ok : Bool)
  | accept (set : List Transaction) (ok : Bool)
deriving DecidableEq, Repr

/-- An event is a reconciliation mutation step (durable-store write or
Admission Gate call), as opposed to a lock transition or notification. -/
def Event.isMutation : Event → Bool
  | .lockEx => false
  | .demote => false
  | .notify => false
  | .demotedUnlock => false
  | .unlock => false
  | _ => true

/-- Outcome oracle for the durable ledger mirror: whether each write
(`deleteTransaction`, `addTransaction`, `putRecentConsensusChange`,
`putBlockHeight`) succeeds.  The source only logs failures. -/
structure DbOracle where
  del : Nat → Bool
  add : Nat → Bool
  putCC : Nat → Bool
  putH : Nat → Bool

/-- Record a first-seen height for a transaction identifier if none is
recorded yet (heights are created when a transaction is first pooled and never
updated in place). -/
def recordHeight (k h : Nat) (m : List (Nat × Nat)) : List (Nat × Nat) :=
  match alookup k m with
  | some _ => m
  | none => ainsert k h m

/-- Modelled from the spec: `acceptTransactionSet` (the Admission Gate) is an
external collaborator whose code is not among the verified sources.  Per the
specification it decides acceptance of the candidate set with the supplied
validation capability; on success it claims the set's objects, records the set
under its content-derived identifier, updates the size counter and records
first-seen heights for transactions not already tracked; on failure it leaves
the state unchanged and returns an error. -/
def acceptTransactionSet (tp : TransactionPool) (set : List Transaction)
    (tryFn : List Transaction → Bool) : Except Unit TransactionPool :=
  if tryFn set then
    let sid := set.map Transaction.id
    Except.ok
      { tp with
        knownObjects :=
          set.foldl (fun m t => t.objects.foldl (fun m' o => ainsert o sid m') m)
            tp.knownObjects
        transactionSets := ainsert sid set tp.transactionSets
        transactionSetDiffs := sid :: tp.transactionSetDiffs
        transactionListSize := tp.transactionListSize + set.length
        transactionHeights :=
          set.foldl (fun m t => recordHeight t.id tp.blockHeight m)
            tp.transactionHeights }
  else
    Except.error ()

/-- One iteration of the loop over `cc.RevertedBlocks`: decrement the height
(with unsigned wraparound) and mark each of the block's transactions
unconfirmed in the durable ledger mirror. -/
def revertStep (db : DbOracle) (acc : Nat × List Event) (b : Block) :
    Nat × List Event :=
  ((acc.1 + U64 - 1) % U64,
   acc.2 ++ b.transactions.map (fun t => Event.dbDelete t.id (db.del t.id)))

/-- The loop over `cc.RevertedBlocks`, in the order supplied. -/
def revertBlocks (db : DbOracle) (blocks : List Block) (h : Nat) :
    Nat × List Event :=
  blocks.foldl (revertStep db) (h, [])

/-- One iteration of the loop over `cc.AppliedBlocks`: increment the height
(with unsigned wraparound) and mark each of the block's transactions confirmed
in the durable ledger mirror. -/
def applyStep (db : DbOracle) (acc : Nat × List Event) (b : Block) :
    Nat × List Event :=
  ((acc.1 + 1) % U64,
   acc.2 ++ b.transactions.map (fun t => Event.dbAdd t.id (db.add t.id)))

/-- The loop over `cc.AppliedBlocks`, in chain order. -/
def applyBlocks (db : DbOracle) (blocks : List Block) (h : Nat) :
    Nat × List Event :=
  blocks.foldl (applyStep db) (h, [])

/-- The identifiers of all transactions appearing in the applied blocks of a
change (the `txids` set of the source). -/
def appliedIDs (cc : ConsensusChange) : List Nat :=
  (cc.appliedBlocks.map (fun b => b.transactions.map Transaction.id)).flatten

/-- The `unconfirmedSets` construction of the source: for every pooled set,
the filtered copy that drops the transactions whose identifiers appear in the
applied blocks, in the order they appear in the set. -/
def stripSets (txids : List Nat) (sets : List (List Nat × List Transaction)) :
    List (List Transaction) :=
  sets.map (fun p => p.2.filter (fun t => !(decide (t.id ∈ txids))))

/-- The inner loop of the age filter: walk one surviving set, keeping a
transaction when it has no recorded first-seen height or when the unsigned
difference `blockHeight - seenHeight` is at most `maxTxnAge`, and deleting the
height record of any transaction dropped.  The heights map is threaded because
the source deletes from it while iterating. -/
def pruneTxns (bh : Nat) : List Transaction → List (Nat × Nat) →
    List Transaction × List (Nat × Nat)
  | [], m => ([], m)
  | t :: rest, m =>
    let seen := alookup t.id m
    let seenHeight := seen.getD 0
    if (bh + U64 - seenHeight) % U64 ≤ maxTxnAge ∨ seen = none then
      let r := pruneTxns bh rest m
      (t :: r.1, r.2)
    else
      pruneTxns bh rest (aerase t.id m)

/-- The outer loop of the age filter, over all surviving sets. -/
def pruneSets (bh : Nat) : List (List Transaction) → List (Nat × Nat) →
    List (List Transaction) × List (Nat × Nat)
  | [], m => ([], m)
  | s :: rest, m =>
    let r := pruneTxns bh s m
    let r2 := pruneSets bh rest r.2
    (r.1 :: r2.1, r2.2)

/-- The resurrection loop of the source: walk the given transactions (the
reverted blocks' transactions, oldest-reverted block first), skip any
transaction whose identifier appears in an applied block, and otherwise
attempt singleton admission through the Admission Gate, ignoring errors. -/
def resurrect (tryFn : List Transaction → Bool) (txids : List Nat) :
    List Transaction → TransactionPool → TransactionPool × List Event
  | [], st => (st, [])
  | t :: rest, st =>
    if t.id ∈ txids then
      resurrect tryFn txids rest st
    else
      match acceptTransactionSet st [t] tryFn with
      | Except.ok st' =>
        let r := resurrect tryFn txids rest st'
        (r.1, Event.accept [t] true :: r.2)
      | Except.error _ =>
        let r := resurrect tryFn txids rest st
        (r.1, Event.accept [t] false :: r.2)

/-- One iteration of the re-admission loop: attempt singleton admission of a
surviving transaction; on failure delete its first-seen-height record. -/
def readdTxn (tryFn : List Transaction → Bool) (st : TransactionPool)
    (t : Transaction) : TransactionPool × List Event :=
  match acceptTransactionSet st [t] tryFn with
  | Except.ok st' => (st', [Event.accept [t] true])
  | Except.error _ =>
    ({ st with transactionHeights := aerase t.id st.transactionHeights },
     [Event.accept [t] false])

/-- The re-admission loop of the source, over all transactions surviving the
age filter, in order. -/
def readdTxns (tryFn : List Transaction → Bool) :
    List Transaction → TransactionPool → TransactionPool × List Event
  | [], st => (st, [])
  | t :: rest, st =>
    let r := readdTxn tryFn st t
    let r2 := readdTxns tryFn rest r.1
    (r2.1, r.2 ++ r2.2)

/-- `ProcessConsensusChange` from the source: under the exclusive lock, unwind
reverted blocks and apply new blocks against the durable ledger mirror while
moving `blockHeight`, persist the checkpoint, compute the newly-confirmed
identifiers, strip them from every pooled set, purge the pool, age-filter the
survivors, resurrect reverted transactions not re-applied, re-admit the
survivors, then demote the lock, notify subscribers, and release.  Returns the
new pool state together with the recorded event trace. -/
def processConsensusChange (db : DbOracle) (tp : TransactionPool)
    (cc : ConsensusChange) : TransactionPool × List Event :=
  let r1 := revertBlocks db cc.revertedBlocks tp.blockHeight
  let r2 := applyBlocks db cc.appliedBlocks r1.1
  let ck : List Event :=
    [Event.dbPutChange cc.id (db.putCC cc.id),
     Event.dbPutHeight r2.1 (db.putH r2.1)]
  let txids := appliedIDs cc
  let unconfirmed := stripSets txids tp.transactionSets
  let tp1 := TransactionPool.purge { tp with blockHeight := r2.1 }
  let pr := pruneSets r2.1 unconfirmed tp1.transactionHeights
  let tp2 := { tp1 with transactionHeights := pr.2 }
  let r3 := resurrect cc.tryTransactionSet txids
    ((cc.revertedBlocks.reverse.map Block.transactions).flatten) tp2
  let r4 := readdTxns cc.tryTransactionSet pr.1.flatten r3.1
  (r4.1,
   Event.lockEx ::
     (r1.2 ++ r2.2 ++ ck ++ r3.2 ++ r4.2 ++
       [Event.demote, Event.notify, Event.demotedUnlock]))

/-- `PurgeTransactionPool` from the source: take the exclusive lock, purge,
and unlock.  No durable-store write, no Admission Gate call, no
notification. -/
def purgeTransactionPool (tp : TransactionPool) : TransactionPool × List Event :=
  (tp.purge, [Event.lockEx, Event.unlock])

/-- The pool state at startup: every index empty and height zero. -/
def initialPool : TransactionPool :=
  { knownObjects := []
    transactionSets := []
    transactionSetDiffs := []
    transactionListSize := 0
    transactionHeights := []
    blockHeight := 0 }

/-- Process a whole sequence of consensus changes starting from the initial
pool state. -/
def processSeq (db : DbOracle) (ccs : List ConsensusChange) : TransactionPool :=
  ccs.foldl (fun tp cc => (processConsensusChange db tp cc).1) initialPool

/-- The net height movement of one change: one up per applied block, one down
per reverted block, as an unbounded integer. -/
def ccNet (cc : ConsensusChange) : Int :=
  (cc.appliedBlocks.length : Int) - (cc.revertedBlocks.length : Int)

/-- The running net sum of height movements over a sequence of changes. -/
def netSum (ccs : List ConsensusChange) : Int :=
  ccs.foldl (fun a cc => a + ccNet cc) 0

/-- Extract the candidate sets of the Admission Gate calls recorded in a
trace, in order. -/
def acceptCalls : List Event → List (List Transaction)
  | [] => []
  | Event.accept s _ :: rest => s :: acceptCalls rest
  | _ :: rest => acceptCalls rest

/-- A sample transaction used by concrete counterexamples and witnesses. -/
def tx7 : Transaction := ⟨7, [1]⟩

/-- A durable-store oracle on which every write succeeds. -/
def dbAllOk : DbOracle := ⟨fun _ => true, fun _ => true, fun _ => true, fun _ => true⟩

/-- A consensus change consisting of one reverted (empty) block and no applied
blocks. -/
def ccRevertOne : ConsensusChange :=
  { revertedBlocks := [⟨[]⟩], appliedBlocks := [], id := 0,
    tryTransactionSet := fun _ => true }

/-! ### Association-list lemmas -/

theorem alookup_aerase_self {β : Type} (k : Nat) (l : List (Nat × β)) :
    alookup k (aerase k l) = none := by
  induction l with
  | nil => rfl
  | cons p rest ih =>
    by_cases h : p.1 = k
    · simpa [aerase, h] using ih
    · simp [aerase, h, alookup, ih]

theorem mem_aerase {α β : Type} [DecidableEq α] {k : α} {l : List (α × β)}
    {p : α × β} (hp : p ∈ aerase k l) : p ∈ l := by
  induction l with
  | nil => simp [aerase] at hp
  | cons q rest ih =>
    by_cases h : q.1 = k
    · simp only [aerase, if_pos h] at hp
      exact List.mem_cons_of_mem _ (ih hp)
    · simp only [aerase, if_neg h, List.mem_cons] at hp
      rcases hp with hp | hp
      · exact hp ▸ List.mem_cons_self _ _
      · exact List.mem_cons_of_mem _ (ih hp)

theorem mem_ainsert {α β : Type} [DecidableEq α] {k : α} {v : β}
    {l : List (α × β)} {p : α × β} (hp : p ∈ ainsert k v l) :
    p = (k, v) ∨ p ∈ l := by
  simp only [ainsert, List.mem_cons] at hp
  rcases hp with hp | hp
  · exact Or.inl hp
  · exact Or.inr (mem_aerase hp)

theorem alookup_aerase_ne {β : Type} {k k' : Nat} (h : k ≠ k')
    (l : List (Nat × β)) : alookup k (aerase k' l) = alookup k l := by
  induction l with
  | nil => rfl
  | cons p rest ih =>
    by_cases hp : p.1 = k'
    · have hpk : p.1 ≠ k := by rw [hp]; exact Ne.symm h
      simp [aerase, hp, alookup, hpk, Ne.symm h, ih]
    · simp only [aerase, if_neg hp]
      by_cases hk : p.1 = k <;> simp [alookup, hk, ih]

theorem alookup_ainsert_ne {β : Type} {k k' : Nat} (h : k ≠ k') (v : β)
    (l : List (Nat × β)) : alookup k (ainsert k' v l) = alookup k l := by
  simp only [ainsert, alookup, if_neg (fun hk : k' = k => h hk.symm)]
  exact alookup_aerase_ne h l

theorem alookup_recordHeight_preserve {k k' h v : Nat} {m : List (Nat × Nat)}
    (hv : alookup k m = some v) : alookup k (recordHeight k' h m) = some v := by
  unfold recordHeight
  cases hm : alookup k' m with
  | some _ => simpa using hv
  | none =>
    by_cases hk : k = k'
    · rw [hk] at hv; rw [hv] at hm; cases hm
    · rw [alookup_ainsert_ne hk]; exact hv

theorem foldl_recordHeight_preserve {k v h : Nat} (set : List Transaction)
    {m : List (Nat × Nat)} (hv : alookup k m = some v) :
    alookup k (set.foldl (fun m' t => recordHeight t.id h m') m) = some v := by
  induction set generalizing m with
  | nil => simpa using hv
  | cons t rest ih =>
    exact ih (alookup_recordHeight_preserve hv)

/-! ### Admission Gate lemmas -/

theorem accept_error_iff (st : TransactionPool) (set : List Transaction)
    (f : List Transaction → Bool) :
    acceptTransactionSet st set f = Except.error () ↔ f set = false := by
  unfold acceptTransactionSet
  by_cases h : f set <;> simp [h]

theorem accept_ok_sets {st st' : TransactionPool} {set : List Transaction}
    {f : List Transaction → Bool}
    (h : acceptTransactionSet st set f = Except.ok st') :
    ∀ p ∈ st'.transactionSets,
      p = (set.map Transaction.id, set) ∨ p ∈ st.transactionSets := by
  unfold acceptTransactionSet at h
  by_cases hf : f set
  · simp only [hf, if_true, Except.ok.injEq] at h
    subst h
    intro p hp
    exact mem_ainsert hp
  · simp [hf] at h

theorem accept_ok_blockHeight {st st' : TransactionPool}
    {set : List Transaction} {f : List Transaction → Bool}
    (h : acceptTransactionSet st set f = Except.ok st') :
    st'.blockHeight = st.blockHeight := by
  unfold acceptTransactionSet at h
  by_cases hf : f set
  · simp only [hf, if_true, Except.ok.injEq] at h
    subst h
    rfl
  · simp [hf] at h

theorem accept_ok_heights {st st' : TransactionPool} {set : List Transaction}
    {f : List Transaction → Bool}
    (h : acceptTransactionSet st set f = Except.ok st') :
    ∀ k v, alookup k st.transactionHeights = some v →
      alookup k st'.transactionHeights = some v := by
  unfold acceptTransactionSet at h
  by_cases hf : f set
  · simp only [hf, if_true, Except.ok.injEq] at h
    subst h
    intro k v hv
    exact foldl_recordHeight_preserve set hv
  · simp [hf] at h

/-! ### Resurrection-loop lemmas -/

theorem resurrect_blockHeight (f : List Transaction → Bool) (txids : List Nat)
    (txns : List Transaction) (st : TransactionPool) :
    (resurrect f txids txns st).1.blockHeight = st.blockHeight := by
  induction txns generalizing st with
  | nil => rfl
  | cons t rest ih =>
    simp only [resurrect]
    by_cases ht : t.id ∈ txids
    · simp only [if_pos ht]; exact ih st
    · simp only [if_neg ht]
      cases hacc : acceptTransactionSet st [t] f with
      | ok st' => simpa [ih st'] using accept_ok_blockHeight hacc
      | error e => exact ih st

theorem resurrect_sets (f : List Transaction → Bool) (txids : List Nat)
    (txns : List Transaction) (st : TransactionPool) :
    ∀ p ∈ (resurrect f txids txns st).1.transactionSets,
      p ∈ st.transactionSets ∨
        ∃ t, t ∈ txns ∧ t.id ∉ txids ∧ p = ([t.id], [t]) ∧
          Event.accept [t] true ∈ (resurrect f txids txns st).2 := by
  induction txns generalizing st with
  | nil => intro p hp; exact Or.inl hp
  | cons t rest ih =>
    intro p hp
    simp only [resurrect] at hp ⊢
    by_cases ht : t.id ∈ txids
    · simp only [if_pos ht] at hp ⊢
      rcases ih st p hp with h | ⟨t', ht', hnt, hpe, hev⟩
      · exact Or.inl h
      · exact Or.inr ⟨t', List.mem_cons_of_mem _ ht', hnt, hpe, hev⟩
    · simp only [if_neg ht] at hp ⊢
      cases hacc : acceptTransactionSet st [t] f with
      | ok st' =>
        simp only [hacc] at hp ⊢
        rcases ih st' p hp with h | ⟨t', ht', hnt, hpe, hev⟩
        · rcases accept_ok_sets hacc p h with h' | h'
          · exact Or.inr ⟨t, List.mem_cons_self _ _, ht, by simpa using h',
              List.mem_cons_self _ _⟩
          · exact Or.inl h'
        · exact Or.inr ⟨t', List.mem_cons_of_mem _ ht', hnt, hpe,
            List.mem_cons_of_mem _ hev⟩
      | error e =>
        simp only [hacc] at hp ⊢
        rcases ih st p hp with h | ⟨t', ht', hnt, hpe, hev⟩
        · exact Or.inl h
        · exact Or.inr ⟨t', List.mem_cons_of_mem _ ht', hnt, hpe,
            List.mem_cons_of_mem _ hev⟩

theorem resurrect_calls (f : List Transaction → Bool) (txids : List Nat)
    (txns : List Transaction) (st : TransactionPool) :
    acceptCalls (resurrect f txids txns st).2 =
      (txns.filter (fun t => !(decide (t.id ∈ txids)))).map (fun t => [t]) := by
  induction txns generalizing st with
  | nil => rfl
  | cons t rest ih =>
    simp only [resurrect]
    by_cases ht : t.id ∈ txids
    · simp only [if_pos ht, List.filter_cons, decide_eq_true ht]
      simpa using ih st
    · simp only [if_neg ht]
      cases hacc : acceptTransactionSet st [t] f with
      | ok st' =>
        simp only [List.filter_cons]
        have : (!(decide (t.id ∈ txids))) = true := by simpa using ht
        simp [acceptCalls, this, ih st']
      | error e =>
        simp only [List.filter_cons]
        have : (!(decide (t.id ∈ txids))) = true := by simpa using ht
        simp [acceptCalls, this, ih st]

theorem resurrect_fail (f : List Transaction → Bool) (txids : List Nat)
    (txns : List Transaction) (st : TransactionPool)
    (hfail : ∀ t ∈ txns, f [t] = false) :
    (resurrect f txids txns st).1 = st := by
  induction txns generalizing st with
  | nil => rfl
  | cons t rest ih =>
    simp only [resurrect]
    by_cases ht : t.id ∈ txids
    · simp only [if_pos ht]
      exact ih st (fun t' ht' => hfail t' (List.mem_cons_of_mem _ ht'))
    · simp only [if_neg ht]
      have herr : acceptTransactionSet st [t] f = Except.error () :=
        (accept_error_iff st [t] f).mpr (hfail t (List.mem_cons_self _ _))
      simp only [herr]
      exact ih st (fun t' ht' => hfail t' (List.mem_cons_of_mem _ ht'))

theorem resurrect_events (f : List Transaction → Bool) (txids : List Nat)
    (txns : List Transaction) (st : TransactionPool) :
    ∀ e ∈ (resurrect f txids txns st).2, ∃ t b, e = Event.accept [t] b := by
  induction txns generalizing st with
  | nil => intro e he; simp [resurrect] at he
  | cons t rest ih =>
    intro e he
    simp only [resurrect] at he
    by_cases ht : t.id ∈ txids
    · simp only [if_pos ht] at he; exact ih st e he
    · simp only [if_neg ht] at he
      cases hacc : acceptTransactionSet st [t] f with
      | ok st' =>
        simp only [hacc, List.mem_cons] at he
        rcases he with he | he
        · exact ⟨t, true, he⟩
        · exact ih st' e he
      | error e' =>
        simp only [hacc, List.mem_cons] at he
        rcases he with he | he
        · exact ⟨t, false, he⟩
        · exact ih st e he

/-! ### Re-admission-loop lemmas -/

theorem readd_blockHeight (f : List Transaction → Bool)
    (txns : List Transaction) (st : TransactionPool) :
    (readdTxns f txns st).1.blockHeight = st.blockHeight := by
  induction txns generalizing st with
  | nil => rfl
  | cons t rest ih =>
    simp only [readdTxns, readdTxn]
    cases hacc : acceptTransactionSet st [t] f with
    | ok st' => simpa [ih st'] using accept_ok_blockHeight hacc
    | error e => exact ih _

theorem readd_sets (f : List Transaction → Bool) (txns : List Transaction)
    (st : TransactionPool) :
    ∀ p ∈ (readdTxns f txns st).1.transactionSets,
      p ∈ st.transactionSets ∨
        ∃ t, t ∈ txns ∧ p = ([t.id], [t]) ∧
          Event.accept [t] true ∈ (readdTxns f txns st).2 := by
  induction txns generalizing st with
  | nil => intro p hp; exact Or.inl hp
  | cons t rest ih =>
    intro p hp
    simp only [readdTxns, readdTxn] at hp ⊢
    cases hacc : acceptTransactionSet st [t] f with
    | ok st' =>
      simp only [hacc] at hp ⊢
      rcases ih st' p hp with h | ⟨t', ht', hpe, hev⟩
      · rcases accept_ok_sets hacc p h with h' | h'
        · exact Or.inr ⟨t, List.mem_cons_self _ _, by simpa using h', by simp⟩
        · exact Or.inl h'
      · exact Or.inr ⟨t', List.mem_cons_of_mem _ ht', hpe, by
          simp only [List.mem_append]; exact Or.inr hev⟩
    | error e =>
      simp only [hacc] at hp ⊢
      rcases ih _ p hp with h | ⟨t', ht', hpe, hev⟩
      · exact Or.inl h
      · exact Or.inr ⟨t', List.mem_cons_of_mem _ ht', hpe, by
          simp only [List.mem_append]; exact Or.inr hev⟩

theorem readd_calls (f : List Transaction → Bool) (txns : List Transaction)
    (st : TransactionPool) :
    acceptCalls (readdTxns f txns st).2 = txns.map (fun t => [t]) := by
  induction txns generalizing st with
  | nil => rfl
  | cons t rest ih =>
    simp only [readdTxns, readdTxn]
    cases hacc : acceptTransactionSet st [t] f with
    | ok st' => simp [acceptCalls, ih st']
    | error e => simp [acceptCalls, ih]

theorem readd_events (f : List Transaction → Bool) (txns : List Transaction)
    (st : TransactionPool) :
    ∀ e ∈ (readdTxns f txns st).2, ∃ t b, e = Event.accept [t] b := by
  induction txns generalizing st with
  | nil => intro e he; simp [readdTxns] at he
  | cons t rest ih =>
    intro e he
    simp only [readdTxns, readdTxn] at he
    cases hacc : acceptTransactionSet st [t] f with
    | ok st' =>
      simp only [hacc, List.cons_append, List.nil_append, List.mem_cons] at he
      rcases he with he | he
      · exact ⟨t, true, he⟩
      · exact ih st' e he
    | error e' =>
      simp only [hacc, List.cons_append, List.nil_append, List.mem_cons] at he
      rcases he with he | he
      · exact ⟨t, false, he⟩
      · exact ih _ e he

/-! ### Age-filter and stripping lemmas -/

theorem pruneTxns_subset (bh : Nat) (l : List Transaction)
    (m : List (Nat × Nat)) : ∀ t ∈ (pruneTxns bh l m).1, t ∈ l := by
  induction l generalizing m with
  | nil => intro t ht; simp [pruneTxns] at ht
  | cons t' rest ih =>
    intro t ht
    simp only [pruneTxns] at ht
    split at ht
    · simp only [List.mem_cons] at ht
      rcases ht with ht | ht
      · exact ht ▸ List.mem_cons_self _ _
      · exact List.mem_cons_of_mem _ (ih m t ht)
    · exact List.mem_cons_of_mem _ (ih _ t ht)

theorem pruneSets_subset (bh : Nat) (ls : List (List Transaction))
    (m : List (Nat × Nat)) :
    ∀ t ∈ (pruneSets bh ls m).1.flatten, t ∈ ls.flatten := by
  induction ls generalizing m with
  | nil => intro t ht; simp [pruneSets] at ht
  | cons s rest ih =>
    intro t ht
    simp only [pruneSets, List.flatten_cons, List.mem_append] at ht ⊢
    rcases ht with ht | ht
    · exact Or.inl (pruneTxns_subset bh s m t ht)
    · exact Or.inr (ih _ t ht)

theorem stripSets_flatten (txids : List Nat)
    (sets : List (List Nat × List Transaction)) :
    ∀ t ∈ (stripSets txids sets).flatten, t.id ∉ txids := by
  intro t ht
  simp only [stripSets, List.mem_flatten, List.mem_map] at ht
  rcases ht with ⟨l, ⟨p, hp, hl⟩, htl⟩
  rw [← hl] at htl
  have := List.of_mem_filter htl
  simpa using this

/-! ### Height-arithmetic lemmas -/

theorem foldl_revertStep (db : DbOracle) (blocks : List Block) :
    ∀ acc : Nat × List Event, acc.1 < U64 →
      (blocks.foldl (revertStep db) acc).1 < U64 ∧
        ((blocks.foldl (revertStep db) acc).1 : Int) =
          ((acc.1 : Int) - blocks.length) % (U64 : Int) := by
  induction blocks with
  | nil =>
    intro acc hacc
    refine ⟨hacc, ?_⟩
    simp only [List.foldl_nil, List.length_nil, U64] at hacc ⊢
    omega
  | cons b rest ih =>
    intro acc hacc
    have hU : 0 < U64 := by norm_num [U64]
    have hmod : (revertStep db acc b).1 < U64 := Nat.mod_lt _ hU
    obtain ⟨h1, h2⟩ := ih (revertStep db acc b) hmod
    refine ⟨by simpa [List.foldl_cons] using h1, ?_⟩
    simp only [List.foldl_cons, List.length_cons]
    rw [h2]
    simp only [revertStep, U64] at hacc ⊢
    omega

theorem foldl_applyStep (db : DbOracle) (blocks : List Block) :
    ∀ acc : Nat × List Event, acc.1 < U64 →
      (blocks.foldl (applyStep db) acc).1 < U64 ∧
        ((blocks.foldl (applyStep db) acc).1 : Int) =
          ((acc.1 : Int) + blocks.length) % (U64 : Int) := by
  induction blocks with
  | nil =>
    intro acc hacc
    refine ⟨hacc, ?_⟩
    simp only [List.foldl_nil, List.length_nil, U64] at hacc ⊢
    omega
  | cons b rest ih =>
    intro acc hacc
    have hU : 0 < U64 := by norm_num [U64]
    have hmod : (applyStep db acc b).1 < U64 := Nat.mod_lt _ hU
    obtain ⟨h1, h2⟩ := ih (applyStep db acc b) hmod
    refine ⟨by simpa [List.foldl_cons] using h1, ?_⟩
    simp only [List.foldl_cons, List.length_cons]
    rw [h2]
    simp only [applyStep, U64] at hacc ⊢
    omega

theorem revertBlocks_height (db : DbOracle) (blocks : List Block) (h : Nat)
    (hh : h < U64) :
    (revertBlocks db blocks h).1 < U64 ∧
      ((revertBlocks db blocks h).1 : Int) =
        ((h : Int) - blocks.length) % (U64 : Int) := by
  simpa [revertBlocks] using foldl_revertStep db blocks (h, []) hh

theorem applyBlocks_height (db : DbOracle) (blocks : List Block) (h : Nat)
    (hh : h < U64) :
    (applyBlocks db blocks h).1 < U64 ∧
      ((applyBlocks db blocks h).1 : Int) =
        ((h : Int) + blocks.length) % (U64 : Int) := by
  simpa [applyBlocks] using foldl_applyStep db blocks (h, []) hh

theorem process_blockHeight (db : DbOracle) (tp : TransactionPool)
    (cc : ConsensusChange) (hh : tp.blockHeight < U64) :
    (processConsensusChange db tp cc).1.blockHeight < U64 ∧
      ((processConsensusChange db tp cc).1.blockHeight : Int) =
        ((tp.blockHeight : Int) + ccNet cc) % (U64 : Int) := by
  obtain ⟨r1, r2⟩ := revertBlocks_height db cc.revertedBlocks tp.blockHeight hh
  obtain ⟨a1, a2⟩ :=
    applyBlocks_height db cc.appliedBlocks
      (revertBlocks db cc.revertedBlocks tp.blockHeight).1 r1
  have hfinal :
      (processConsensusChange db tp cc).1.blockHeight =
        (applyBlocks db cc.appliedBlocks
          (revertBlocks db cc.revertedBlocks tp.blockHeight).1).1 := by
    simp only [processConsensusChange, readd_blockHeight, resurrect_blockHeight,
      TransactionPool.purge]
  rw [hfinal]
  refine ⟨a1, ?_⟩
  rw [a2, ccNet, r2]
  simp only [U64]
  omega

theorem processSeq_height_aux (db : DbOracle) (ccs : List ConsensusChange) :
    ∀ (tp : TransactionPool) (acc : Int), tp.blockHeight < U64 →
      (tp.blockHeight : Int) = acc % (U64 : Int) →
      (ccs.foldl (fun tp' cc => (processConsensusChange db tp' cc).1) tp).blockHeight
          < U64 ∧
        ((ccs.foldl (fun tp' cc =>
              (processConsensusChange db tp' cc).1) tp).blockHeight : Int) =
          (ccs.foldl (fun a cc => a + ccNet cc) acc) % (U64 : Int) := by
  induction ccs with
  | nil =>
    intro tp acc h1 h2
    exact ⟨h1, by simpa using h2⟩
  | cons cc rest ih =>
    intro tp acc h1 h2
    obtain ⟨p1, p2⟩ := process_blockHeight db tp cc h1
    simp only [List.foldl_cons]
    refine ih _ (acc + ccNet cc) p1 ?_
    rw [p2, h2]
    simp only [U64]
    omega

/-! ### Independence of the in-memory result from durable-store outcomes -/

theorem foldl_revertStep_db (db1 db2 : DbOracle) (blocks : List Block) :
    ∀ acc1 acc2 : Nat × List Event, acc1.1 = acc2.1 →
      (blocks.foldl (revertStep db1) acc1).1 =
        (blocks.foldl (revertStep db2) acc2).1 := by
  induction blocks with
  | nil => intro acc1 acc2 h; simpa using h
  | cons b rest ih =>
    intro acc1 acc2 h
    simp only [List.foldl_cons]
    exact ih _ _ (by simp [revertStep, h])

theorem foldl_applyStep_db (db1 db2 : DbOracle) (blocks : List Block) :
    ∀ acc1 acc2 : Nat × List Event, acc1.1 = acc2.1 →
      (blocks.foldl (applyStep db1) acc1).1 =
        (blocks.foldl (applyStep db2) acc2).1 := by
  induction blocks with
  | nil => intro acc1 acc2 h; simpa using h
  | cons b rest ih =>
    intro acc1 acc2 h
    simp only [List.foldl_cons]
    exact ih _ _ (by simp [applyStep, h])

theorem revertBlocks_db (db1 db2 : DbOracle) (blocks : List Block) (h : Nat) :
    (revertBlocks db1 blocks h).1 = (revertBlocks db2 blocks h).1 :=
  foldl_revertStep_db db1 db2 blocks (h, []) (h, []) rfl

theorem applyBlocks_db (db1 db2 : DbOracle) (blocks : List Block) (h : Nat) :
    (applyBlocks db1 blocks h).1 = (applyBlocks db2 blocks h).1 :=
  foldl_applyStep_db db1 db2 blocks (h, []) (h, []) rfl

/-! ### Trace-shape lemmas -/

theorem foldl_revertStep_events (db : DbOracle) (blocks : List Block) :
    ∀ acc : Nat × List Event, ∀ e ∈ (blocks.foldl (revertStep db) acc).2,
      e ∈ acc.2 ∨ Event.isMutation e = true := by
  induction blocks with
  | nil => intro acc e he; exact Or.inl he
  | cons b rest ih =>
    intro acc e he
    simp only [List.foldl_cons] at he
    rcases ih (revertStep db acc b) e he with h | h
    · simp only [revertStep, List.mem_append, List.mem_map] at h
      rcases h with h | ⟨t, _, ht⟩
      · exact Or.inl h
      · exact Or.inr (by rw [← ht]; rfl)
    · exact Or.inr h

theorem foldl_applyStep_events (db : DbOracle) (blocks : List Block) :
    ∀ acc : Nat × List Event, ∀ e ∈ (blocks.foldl (applyStep db) acc).2,
      e ∈ acc.2 ∨ Event.isMutation e = true := by
  induction blocks with
  | nil => intro acc e he; exact Or.inl he
  | cons b rest ih =>
    intro acc e he
    simp only [List.foldl_cons] at he
    rcases ih (applyStep db acc b) e he with h | h
    · simp only [applyStep, List.mem_append, List.mem_map] at h
      rcases h with h | ⟨t, _, ht⟩
      · exact Or.inl h
      · exact Or.inr (by rw [← ht]; rfl)
    · exact Or.inr h

theorem revertBlocks_events (db : DbOracle) (blocks : List Block) (h : Nat) :
    ∀ e ∈ (revertBlocks db blocks h).2, Event.isMutation e = true := by
  intro e he
  rcases foldl_revertStep_events db blocks (h, []) e he with h' | h'
  · simp at h'
  · exact h'

theorem applyBlocks_events (db : DbOracle) (blocks : List Block) (h : Nat) :
    ∀ e ∈ (applyBlocks db blocks h).2, Event.isMutation e = true := by
  intro e he
  rcases foldl_applyStep_events db blocks (h, []) e he with h' | h'
  · simp at h'
  · exact h'

/-! ### Shape of the pool after reconciliation -/

theorem process_sets_shape (db : DbOracle) (tp : TransactionPool)
    (cc : ConsensusChange) :
    ∀ p ∈ (processConsensusChange db tp cc).1.transactionSets,
      ∃ t : Transaction, p = ([t.id], [t]) ∧ t.id ∉ appliedIDs cc ∧
        Event.accept [t] true ∈ (processConsensusChange db tp cc).2 := by
  intro p hp
  simp only [processConsensusChange] at hp ⊢
  rcases readd_sets _ _ _ p hp with h | ⟨t, ht, hpe, hev⟩
  · rcases resurrect_sets _ _ _ _ p h with h' | ⟨t, ht, hnt, hpe, hev⟩
    · simp [TransactionPool.purge] at h'
    · refine ⟨t, hpe, hnt, ?_⟩
      simp only [List.mem_cons, List.mem_append]
      tauto
  · have htid : t.id ∉ appliedIDs cc := by
      have hsub := pruneSets_subset _ _ _ t ht
      exact stripSets_flatten _ _ t hsub
    refine ⟨t, hpe, htid, ?_⟩
    simp only [List.mem_cons, List.mem_append]
    tauto

theorem mem_zip_map {α β : Type} (f : α → β) (l : List α) :
    ∀ q ∈ l.zip (l.map f), q.2 = f q.1 := by
  induction l with
  | nil => intro q hq; simp at hq
  | cons a rest ih =>
    intro q hq
    simp only [List.map_cons, List.zip_cons_cons, List.mem_cons] at hq
    rcases hq with hq | hq
    · rw [hq]
    · exact ih q hq

/-! ### The claims -/

/-- C1: after `ProcessConsensusChange`, no transaction of an applied block of
the processed change remains in any pooled transaction set; and the filtered
copy built for each previously pooled set is a sublist of that set (relative
order preserved) containing exactly the transactions whose identifiers do not
appear in the applied blocks.  One filtered copy is built per pooled set. -/
theorem C1_confirmed_removed (db : DbOracle) (tp : TransactionPool)
    (cc : ConsensusChange) :
    (∀ p ∈ (processConsensusChange db tp cc).1.transactionSets,
        ∀ t ∈ p.2, t.id ∉ appliedIDs cc) ∧
      (stripSets (appliedIDs cc) tp.transactionSets).length =
          tp.transactionSets.length ∧
      (∀ q ∈ tp.transactionSets.zip (stripSets (appliedIDs cc) tp.transactionSets),
        List.Sublist q.2 q.1.2 ∧
          ∀ t : Transaction, t ∈ q.2 ↔ t ∈ q.1.2 ∧ t.id ∉ appliedIDs cc) := by
  refine ⟨?_, by simp [stripSets], ?_⟩
  · intro p hp t ht
    obtain ⟨t', hpe, hnt, _⟩ := process_sets_shape db tp cc p hp
    rw [hpe] at ht
    simp only [List.mem_singleton] at ht
    rw [ht]
    exact hnt
  · intro q hq
    rw [stripSets] at hq
    have hq2 := mem_zip_map (fun p => p.2.filter
      (fun t => !(decide (t.id ∈ appliedIDs cc)))) tp.transactionSets q hq
    constructor
    · rw [hq2]
      exact List.filter_sublist q.1.2
    · intro t
      rw [hq2]
      simp [List.mem_filter]

/-- Witness for C1 at a concrete input: a pool holding the two-transaction set
with identifiers 3 and 7, processed against a change whose applied block
confirms transaction 3, keeps only transaction 7 in the filtered copy. -/
theorem C1_witness :
    let t3 : Transaction := ⟨3, []⟩
    let t7 : Transaction := ⟨7, [1]⟩
    let tp : TransactionPool :=
      { initialPool with transactionSets := [([3, 7], [t3, t7])] }
    let cc : ConsensusChange := ⟨[], [⟨[t3]⟩], 5, fun _ => true⟩
    let db : DbOracle := ⟨fun _ => true, fun _ => true, fun _ => true, fun _ => true⟩
    t7 ∈ ([t3, t7] : List Transaction) ∧ t7.id ∉ appliedIDs cc ∧
      t7 ∈ [t3, t7].filter (fun t => !(decide (t.id ∈ appliedIDs cc))) := by
  intro t3 t7 tp cc db
  refine ⟨by decide, by decide, ?_⟩
  exact (((C1_confirmed_removed db tp cc).2.2 (([3, 7], [t3, t7]),
      [t3, t7].filter (fun t => !(decide (t.id ∈ appliedIDs cc))))
      (by decide)).2 t7).mpr ⟨by decide, by decide⟩

/-- C2 is refuted on the code: at current height 0, a transaction with
recorded first-seen height 5 has mathematical age 0 − 5 = −5 ≤ 12, so the
claim says the age filter keeps it and retains its height record; the code's
unsigned subtraction wraps around, drops the transaction and deletes the
record. -/
theorem C2_counterexample :
    ((0 : Int) - 5 ≤ 12) ∧ alookup tx7.id [(7, 5)] = some 5 ∧
      pruneTxns 0 [tx7] [(7, 5)] ≠ ([tx7], [(7, 5)]) ∧
      pruneTxns 0 [tx7] [(7, 5)] = ([], []) := by
  refine ⟨by norm_num, by decide, by decide, by decide⟩

/-- C2 as amended: in the age-filter step a surviving transaction is kept
(with the heights map unchanged) iff it has no recorded first-seen height or
the unsigned wrapping difference `(blockHeight - seenHeight) mod 2^64` is at
most `maxTxnAge`; it is dropped with its height record deleted iff it has a
recorded height and that wrapping difference exceeds `maxTxnAge`. -/
theorem C2_amended_age_filter (bh : Nat) (t : Transaction) (m : List (Nat × Nat)) :
    (pruneTxns bh [t] m = ([t], m) ↔
      alookup t.id m = none ∨
        ∃ sh, alookup t.id m = some sh ∧ (bh + U64 - sh) % U64 ≤ maxTxnAge) ∧
    (pruneTxns bh [t] m = ([], aerase t.id m) ↔
      ∃ sh, alookup t.id m = some sh ∧ maxTxnAge < (bh + U64 - sh) % U64) := by
  cases hm : alookup t.id m with
  | none =>
    have hkeep : pruneTxns bh [t] m = ([t], m) := by
      simp [pruneTxns, hm]
    refine ⟨⟨fun _ => Or.inl rfl, fun _ => hkeep⟩, ?_, ?_⟩
    · intro hdrop
      rw [hkeep] at hdrop
      simp at hdrop
    · rintro ⟨sh, hsh, _⟩
      exact Option.noConfusion hsh
  | some sh =>
    by_cases hle : (bh + U64 - sh) % U64 ≤ maxTxnAge
    · have hkeep : pruneTxns bh [t] m = ([t], m) := by
        simp [pruneTxns, hm, hle]
      refine ⟨⟨fun _ => Or.inr ⟨sh, rfl, hle⟩, fun _ => hkeep⟩, ?_, ?_⟩
      · intro hdrop
        rw [hkeep] at hdrop
        simp at hdrop
      · rintro ⟨sh', hsh', hgt⟩
        cases Option.some.inj hsh'
        omega
    · have hdrop : pruneTxns bh [t] m = ([], aerase t.id m) := by
        simp [pruneTxns, hm, hle]
      constructor
      · constructor
        · intro hk
          rw [hdrop] at hk
          simp at hk
        · rintro (h | ⟨sh', hsh', hle'⟩)
          · exact Option.noConfusion h
          · cases Option.some.inj hsh'
            omega
      · exact ⟨fun _ => ⟨sh, rfl, by omega⟩, fun _ => hdrop⟩

/-- Witness for C2: at height 0 with recorded height 5 the wrapping
difference is `2^64 - 5 > 12`, so the transaction is dropped and its record
deleted. -/
theorem C2_witness :
    pruneTxns 0 [tx7] [(7, 5)] = ([], aerase tx7.id [(7, 5)]) :=
  (C2_amended_age_filter 0 tx7 [(7, 5)]).2.mpr ⟨5, by decide, by decide⟩

/-- C10: when the recorded first-seen height is strictly greater than the
current `blockHeight` (possible after a reorg lowered the height), the
unsigned subtraction in the age filter wraps around (no reduction even
occurs: `bh + 2^64 - sh` is already below `2^64`), and whenever that wrapped
difference exceeds `maxTxnAge` the transaction is dropped from the surviving
list and its `TransactionHeights` entry deleted, despite its mathematical age
being negative. -/
theorem C10_unsigned_wraparound (bh sh : Nat) (t : Transaction)
    (l : List Transaction) (m : List (Nat × Nat)) (hlt : bh < sh)
    (hsh : sh < U64) (hm : alookup t.id m = some sh)
    (hwrap : maxTxnAge < (bh + U64 - sh) % U64) :
    ((bh : Int) - (sh : Int) < 0) ∧
      (bh + U64 - sh) % U64 = bh + U64 - sh ∧
      pruneTxns bh (t :: l) m = pruneTxns bh l (aerase t.id m) ∧
      alookup t.id (aerase t.id m) = none := by
  refine ⟨by omega, ?_, ?_, alookup_aerase_self t.id m⟩
  · apply Nat.mod_eq_of_lt
    simp only [U64] at *
    omega
  · simp only [pruneTxns, hm, Option.getD_some]
    rw [if_neg]
    push_neg
    exact ⟨by omega, by simp⟩

/-- Witness for C10: height 0, recorded height 5; the wrapped difference is
`2^64 - 5`, which exceeds 12, so the transaction is dropped and its record
deleted. -/
theorem C10_witness :
    ((0 : Int) - (5 : Int) < 0) ∧
      (0 + U64 - 5) % U64 = 0 + U64 - 5 ∧
      pruneTxns 0 [tx7] [(7, 5)] = pruneTxns 0 [] (aerase tx7.id [(7, 5)]) ∧
      alookup tx7.id (aerase tx7.id [(7, 5)]) = none :=
  C10_unsigned_wraparound 0 5 tx7 [] [(7, 5)] (by decide)
    (by norm_num [U64]) (by decide) (by decide)

/-- C3 is refuted on the code: processing, from height 0, a change with one
reverted block and no applied blocks gives a running net sum of −1, but the
stored `blockHeight` is an unsigned 64-bit integer and wraps to `2^64 − 1`,
so it does not equal the net sum. -/
theorem C3_counterexample :
    netSum [ccRevertOne] = -1 ∧
      (processSeq dbAllOk [ccRevertOne]).blockHeight = U64 - 1 ∧
      ((processSeq dbAllOk [ccRevertOne]).blockHeight : Int) ≠ netSum [ccRevertOne] := by
  refine ⟨by decide, by decide, by decide⟩

/-- C3 as amended: after any sequence of consensus changes processed from the
initial pool (height 0), the stored `blockHeight` equals the running net sum
of +1 per applied block and −1 per reverted block reduced modulo `2^64`; in
particular it equals the exact net sum whenever that sum stays within
`[0, 2^64)`. -/
theorem C3_amended_height_net_sum (db : DbOracle) (ccs : List ConsensusChange) :
    ((processSeq db ccs).blockHeight : Int) = netSum ccs % (U64 : Int) := by
  have h := processSeq_height_aux db ccs initialPool 0
    (by norm_num [initialPool, U64]) (by simp [initialPool])
  simpa [processSeq, netSum] using h.2

/-- C6: `purge` empties the object-claim map, the transaction-set map, the
diff map and the size counter, leaves `transactionHeights` and `blockHeight`
unchanged, and is idempotent; `PurgeTransactionPool` performs exactly this
reset between taking and releasing the exclusive lock, with no subscriber
notification and no durable-store interaction (its trace holds only the lock
transitions). -/
theorem C6_purge_frame (tp : TransactionPool) :
    tp.purge.knownObjects = [] ∧ tp.purge.transactionSets = [] ∧
      tp.purge.transactionSetDiffs = [] ∧ tp.purge.transactionListSize = 0 ∧
      tp.purge.transactionHeights = tp.transactionHeights ∧
      tp.purge.blockHeight = tp.blockHeight ∧
      tp.purge.purge = tp.purge ∧
      (purgeTransactionPool tp).1 = tp.purge ∧
      (purgeTransactionPool tp).2 = [Event.lockEx, Event.unlock] :=
  ⟨rfl, rfl, rfl, rfl, rfl, rfl, rfl, rfl, rfl⟩

/-- C7: `ProcessConsensusChange` is a total function (it returns a state, not
an error), and the in-memory pool state it produces is identical under any
two outcome oracles for the durable ledger mirror: mirror failures affect
only the recorded trace, never the control flow or the in-memory result. -/
theorem C7_no_error_db_independent (db1 db2 : DbOracle) (tp : TransactionPool)
    (cc : ConsensusChange) :
    (processConsensusChange db1 tp cc).1 = (processConsensusChange db2 tp cc).1 := by
  simp only [processConsensusChange]
  rw [revertBlocks_db db1 db2 cc.revertedBlocks tp.blockHeight,
    applyBlocks_db db1 db2 cc.appliedBlocks]

/-- C4: the resurrection step (invoked by `ProcessConsensusChange` on the
reverted blocks in reverse of the order they appear in `cc.revertedBlocks`,
i.e. forward chronological order, with the change's validation capability)
attempts singleton admission of exactly the contained transactions whose
identifiers do not appear in an applied block, in that order; transactions
re-applied by the change are never offered; and when admission fails for
every candidate the pool state is left unchanged (failures are dropped
silently). -/
theorem C4_resurrection_order (cc : ConsensusChange) (st : TransactionPool) :
    acceptCalls
        (resurrect cc.tryTransactionSet (appliedIDs cc)
          ((cc.revertedBlocks.reverse.map Block.transactions).flatten) st).2 =
      (((cc.revertedBlocks.reverse.map Block.transactions).flatten).filter
          (fun t => !(decide (t.id ∈ appliedIDs cc)))).map (fun t => [t]) ∧
    (∀ s ∈ acceptCalls
        (resurrect cc.tryTransactionSet (appliedIDs cc)
          ((cc.revertedBlocks.reverse.map Block.transactions).flatten) st).2,
      ∀ t ∈ s, t.id ∉ appliedIDs cc) ∧
    ((∀ s, cc.tryTransactionSet s = false) →
      (resurrect cc.tryTransactionSet (appliedIDs cc)
        ((cc.revertedBlocks.reverse.map Block.transactions).flatten) st).1 = st) := by
  refine ⟨resurrect_calls _ _ _ _, ?_, ?_⟩
  · intro s hs t hts
    rw [resurrect_calls] at hs
    simp only [List.mem_map, List.mem_filter] at hs
    rcases hs with ⟨t', ⟨_, ht'⟩, rfl⟩
    simp only [List.mem_singleton] at hts
    subst hts
    simpa using ht'
  · intro hfail
    exact resurrect_fail _ _ _ _ (fun t _ => hfail [t])

/-- Witness for C4: one reverted block holding `tx7`, no applied blocks, a
validation capability that rejects everything; `tx7` is offered as a
singleton and the pool state is unchanged. -/
theorem C4_witness :
    let cc : ConsensusChange :=
      { revertedBlocks := [⟨[tx7]⟩], appliedBlocks := [], id := 2,
        tryTransactionSet := fun _ => false }
    (resurrect cc.tryTransactionSet (appliedIDs cc)
        ((cc.revertedBlocks.reverse.map Block.transactions).flatten)
        initialPool).1 = initialPool ∧
      acceptCalls
          (resurrect cc.tryTransactionSet (appliedIDs cc)
            ((cc.revertedBlocks.reverse.map Block.transactions).flatten)
            initialPool).2 = [[tx7]] := by
  intro cc
  refine ⟨(C4_resurrection_order cc initialPool).2.2 (fun s => rfl), ?_⟩
  rw [(C4_resurrection_order cc initialPool).1]
  decide

/-- C5: in the re-admission step, singleton admission is attempted for every
transaction surviving the age filter, in order; an iteration deletes the
transaction's `TransactionHeights` entry exactly when the Admission Gate
returns an error, and on success the iteration is the gate's own update,
which removes no existing height entry. -/
theorem C5_readmission_heights (f : List Transaction → Bool)
    (txns : List Transaction) (st : TransactionPool) :
    acceptCalls (readdTxns f txns st).2 = txns.map (fun t => [t]) ∧
    (∀ (t : Transaction) (st1 : TransactionPool),
      acceptTransactionSet st1 [t] f = Except.error () →
        (readdTxn f st1 t).1.transactionHeights =
          aerase t.id st1.transactionHeights) ∧
    (∀ (t : Transaction) (st1 st2 : TransactionPool),
      acceptTransactionSet st1 [t] f = Except.ok st2 →
        (readdTxn f st1 t).1 = st2 ∧
        ∀ k v, alookup k st1.transactionHeights = some v →
          alookup k (readdTxn f st1 t).1.transactionHeights = some v) := by
  refine ⟨readd_calls _ _ _, ?_, ?_⟩
  · intro t st1 herr
    simp [readdTxn, herr]
  · intro t st1 st2 hok
    have h1 : (readdTxn f st1 t).1 = st2 := by simp [readdTxn, hok]
    refine ⟨h1, ?_⟩
    intro k v hv
    rw [h1]
    exact accept_ok_heights hok k v hv

/-- Witness for C5: a failing admission of `tx7` deletes its height record. -/
theorem C5_witness :
    (readdTxn (fun _ => false)
        { initialPool with transactionHeights := [(7, 3)] } tx7).1.transactionHeights =
      aerase tx7.id [(7, 3)] :=
  (C5_readmission_heights (fun _ => false) [] initialPool).2.1 tx7
    { initialPool with transactionHeights := [(7, 3)] } rfl

/-- Concatenating five lists of mutation events between the lock acquisition
and the closing demote/notify/release sequence yields a trace of the shape
required by the lock discipline. -/
theorem mid_shape (a b c d e tail : List Event)
    (ha : ∀ x ∈ a, Event.isMutation x = true)
    (hb : ∀ x ∈ b, Event.isMutation x = true)
    (hc : ∀ x ∈ c, Event.isMutation x = true)
    (hd : ∀ x ∈ d, Event.isMutation x = true)
    (he : ∀ x ∈ e, Event.isMutation x = true) :
    ∃ mid : List Event,
      Event.lockEx :: (a ++ b ++ c ++ d ++ e ++ tail) =
          Event.lockEx :: (mid ++ tail) ∧
        ∀ x ∈ mid, Event.isMutation x = true := by
  refine ⟨a ++ b ++ c ++ d ++ e, rfl, ?_⟩
  intro x hx
  simp only [List.mem_append] at hx
  rcases hx with ((((hx | hx) | hx) | hx) | hx)
  · exact ha x hx
  · exact hb x hx
  · exact hc x hx
  · exact hd x hx
  · exact he x hx

/-- C8: the trace of `ProcessConsensusChange` opens by taking the lock in
exclusive mode, performs only reconciliation mutations (durable-store writes
and Admission Gate calls) while holding it — no release, re-acquisition or
notification occurs in between — and closes by demoting the lock to shared
mode, notifying subscribers, and releasing the demoted hold, in that order.
Readers therefore never observe a state between the mutations of one
reconciliation. -/
theorem C8_lock_discipline (db : DbOracle) (tp : TransactionPool)
    (cc : ConsensusChange) :
    ∃ mid : List Event,
      (processConsensusChange db tp cc).2 =
          Event.lockEx ::
            (mid ++ [Event.demote, Event.notify, Event.demotedUnlock]) ∧
        ∀ x ∈ mid, Event.isMutation x = true := by
  simp only [processConsensusChange]
  apply mid_shape
  · exact revertBlocks_events db _ _
  · exact applyBlocks_events db _ _
  · intro x hx
    simp only [List.mem_cons, List.not_mem_nil, or_false] at hx
    rcases hx with rfl | rfl
    · rfl
    · rfl
  · intro x hx
    obtain ⟨t, o, rfl⟩ := resurrect_events _ _ _ _ x hx
    rfl
  · intro x hx
    obtain ⟨t, o, rfl⟩ := readd_events _ _ _ x hx
    rfl

/-- Witness for C8 at a concrete input. -/
theorem C8_witness :
    ∃ mid : List Event,
      (processConsensusChange dbAllOk initialPool ccRevertOne).2 =
          Event.lockEx ::
            (mid ++ [Event.demote, Event.notify, Event.demotedUnlock]) ∧
        ∀ x ∈ mid, Event.isMutation x = true :=
  C8_lock_discipline dbAllOk initialPool ccRevertOne

/-- The reverted-blocks loop records no Admission Gate event. -/
theorem foldl_revertStep_accept (db : DbOracle) (blocks : List Block) :
    ∀ (acc : Nat × List Event) (s : List Transaction) (b : Bool),
      Event.accept s b ∈ (blocks.foldl (revertStep db) acc).2 →
        Event.accept s b ∈ acc.2 := by
  induction blocks with
  | nil => intro acc s b h; exact h
  | cons blk rest ih =>
    intro acc s b h
    simp only [List.foldl_cons] at h
    have h2 := ih (revertStep db acc blk) s b h
    simp only [revertStep, List.mem_append, List.mem_map] at h2
    rcases h2 with h2 | ⟨t, _, ht⟩
    · exact h2
    · cases ht

/-- The applied-blocks loop records no Admission Gate event. -/
theorem foldl_applyStep_accept (db : DbOracle) (blocks : List Block) :
    ∀ (acc : Nat × List Event) (s : List Transaction) (b : Bool),
      Event.accept s b ∈ (blocks.foldl (applyStep db) acc).2 →
        Event.accept s b ∈ acc.2 := by
  induction blocks with
  | nil => intro acc s b h; exact h
  | cons blk rest ih =>
    intro acc s b h
    simp only [List.foldl_cons] at h
    have h2 := ih (applyStep db acc blk) s b h
    simp only [applyStep, List.mem_append, List.mem_map] at h2
    rcases h2 with h2 | ⟨t, _, ht⟩
    · exact h2
    · cases ht

/-- C9: every call `ProcessConsensusChange` makes to the Admission Gate
passes a transaction set of length exactly one; and since the pool is purged
before any re-admission, every transaction set present in the pool when the
call returns is a singleton that was admitted by the gate during the call. -/
theorem C9_singleton_admission (db : DbOracle) (tp : TransactionPool)
    (cc : ConsensusChange) :
    (∀ (s : List Transaction) (b : Bool),
      Event.accept s b ∈ (processConsensusChange db tp cc).2 → s.length = 1) ∧
    (∀ p ∈ (processConsensusChange db tp cc).1.transactionSets,
      ∃ t : Transaction, p.2 = [t] ∧
        Event.accept [t] true ∈ (processConsensusChange db tp cc).2) := by
  constructor
  · intro s b hs
    simp only [processConsensusChange, List.mem_cons, List.mem_append] at hs
    rcases hs with h | ((((h | h) | h) | h) | h) | h
    · cases h
    · have := foldl_revertStep_accept db _ _ s b h
      simp at this
    · have := foldl_applyStep_accept db _ _ s b h
      simp at this
    · simp only [List.mem_cons, List.not_mem_nil, or_false] at h
      rcases h with h | h <;> cases h
    · obtain ⟨t, o, ht⟩ := resurrect_events _ _ _ _ _ h
      cases ht
      rfl
    · obtain ⟨t, o, ht⟩ := readd_events _ _ _ _ h
      cases ht
      rfl
    · simp only [List.mem_cons, List.not_mem_nil, or_false] at h
      rcases h with h | h | h <;> cases h
  · intro p hp
    obtain ⟨t, hpe, _, hev⟩ := process_sets_shape db tp cc p hp
    exact ⟨t, by rw [hpe], hev⟩

/-- Witness for C9: a pooled singleton set that survives reconciliation is a
singleton admitted by a gate call recorded in the trace. -/
theorem C9_witness :
    ∃ t : Transaction, (([7], [tx7]) : List Nat × List Transaction).2 = [t] ∧
      Event.accept [t] true ∈
        (processConsensusChange dbAllOk
          { initialPool with transactionSets := [([7], [tx7])] }
          ⟨[], [], 9, fun _ => true⟩).2 :=
  (C9_singleton_admission dbAllOk
      { initialPool with transactionSets := [([7], [tx7])] }
      ⟨[], [], 9, fun _ => true⟩).2 ([7], [tx7]) (by decide)
